import Mathlib

/-!
# Perfmon — verification of the metrics/layout core

Shallow embedding of the Perfmon terminal dashboard's core
(`internal/monitor/monitor.go`, the `ui` package's `sanitizeOutput`, and the
`renderTabs` tab-bar layout), together with theorems checking the
natural-language specification against it.

Modelling conventions:
* Go `float64` values are embedded as `ℚ`.  The code under verification only
  stores, compares, adds/subtracts and divides these values; no theorem below
  depends on binary rounding, so exact rational arithmetic is a faithful model
  of every computation the theorems mention.
* Go `uint64` byte counters are embedded as `ℕ`; every subtraction performed
  by the code is guarded so that it never wraps.
* Fallible Go functions returning `(value, ok)` are embedded as `Option`.
* `time.Time` is embedded as a rational number of seconds; the zero value of
  `time.Time` (its `IsZero` test) is embedded as the rational `0`.
-/

/-! ## History ring (`internal/monitor/monitor.go`) -/

/-- One instant's readings, each value paired with an availability flag
(Go struct `MetricsSample`). -/
structure MetricsSample where
  Load : ℚ
  CPU : ℚ
  Mem : ℚ
  NetKB : ℚ
  OkLoad : Bool
  OkCPU : Bool
  OkMem : Bool
  OkNet : Bool
deriving DecidableEq

/-- Four independent bounded sequences (Go struct `MetricHistory`). -/
structure MetricHistory where
  Load : List ℚ
  CPU : List ℚ
  Mem : List ℚ
  Net : List ℚ
deriving DecidableEq

/-- Go constant `HistoryLength = 30`. -/
def HistoryLength : Nat := 30

/-- Go `trimHistory`: keep only the last `maxLen` entries
(`values[len(values)-maxLen:]`). -/
def trimHistory (values : List ℚ) (maxLen : Nat) : List ℚ :=
  if values.length ≤ maxLen then values
  else values.drop (values.length - maxLen)

/-- Go `UpdateHistory`: for each channel with a valid reading, append and
trim; channels without a valid reading are untouched. -/
def UpdateHistory (history : MetricHistory) (sample : MetricsSample) : MetricHistory :=
  let history :=
    if sample.OkLoad then
      { history with Load := trimHistory (history.Load ++ [sample.Load]) HistoryLength }
    else history
  let history :=
    if sample.OkCPU then
      { history with CPU := trimHistory (history.CPU ++ [sample.CPU]) HistoryLength }
    else history
  let history :=
    if sample.OkMem then
      { history with Mem := trimHistory (history.Mem ++ [sample.Mem]) HistoryLength }
    else history
  let history :=
    if sample.OkNet then
      { history with Net := trimHistory (history.Net ++ [sample.NetKB]) HistoryLength }
    else history
  history

/-- The empty history (Go zero value of `MetricHistory`). -/
def emptyHistory : MetricHistory := ⟨[], [], [], []⟩

/-- One channel's step of `UpdateHistory`, as a pure list operation. -/
def chanStep (xs : List ℚ) (ok : Bool) (v : ℚ) : List ℚ :=
  if ok then trimHistory (xs ++ [v]) HistoryLength else xs

theorem UpdateHistory_Load (h : MetricHistory) (s : MetricsSample) :
    (UpdateHistory h s).Load = chanStep h.Load s.OkLoad s.Load := by
  simp only [UpdateHistory, chanStep]
  cases s.OkLoad <;> cases s.OkCPU <;> cases s.OkMem <;> cases s.OkNet <;> simp

theorem UpdateHistory_CPU (h : MetricHistory) (s : MetricsSample) :
    (UpdateHistory h s).CPU = chanStep h.CPU s.OkCPU s.CPU := by
  simp only [UpdateHistory, chanStep]
  cases s.OkLoad <;> cases s.OkCPU <;> cases s.OkMem <;> cases s.OkNet <;> simp

theorem UpdateHistory_Mem (h : MetricHistory) (s : MetricsSample) :
    (UpdateHistory h s).Mem = chanStep h.Mem s.OkMem s.Mem := by
  simp only [UpdateHistory, chanStep]
  cases s.OkLoad <;> cases s.OkCPU <;> cases s.OkMem <;> cases s.OkNet <;> simp

theorem UpdateHistory_Net (h : MetricHistory) (s : MetricsSample) :
    (UpdateHistory h s).Net = chanStep h.Net s.OkNet s.NetKB := by
  simp only [UpdateHistory, chanStep]
  cases s.OkLoad <;> cases s.OkCPU <;> cases s.OkMem <;> cases s.OkNet <;> simp

theorem trimHistory_length (xs : List ℚ) (m : Nat) :
    (trimHistory xs m).length = min xs.length m := by
  simp only [trimHistory]
  split <;> simp <;> omega

theorem hist_drop_append {α : Type} :
    ∀ (l₁ l₂ : List α) (n : Nat), n ≤ l₁.length →
      (l₁ ++ l₂).drop n = l₁.drop n ++ l₂ := by
  intro l₁
  induction l₁ with
  | nil => intro l₂ n hn; simp at hn; simp [hn]
  | cons a t ih =>
      intro l₂ n hn
      cases n with
      | zero => simp
      | succ k =>
          simp only [List.cons_append, List.drop_succ_cons]
          exact ih l₂ k (by simp at hn; omega)

theorem hist_getLast_concat {α : Type} (l : List α) (a : α) :
    (l ++ [a]).getLast? = some a := by
  induction l with
  | nil => rfl
  | cons b t ih =>
      cases t with
      | nil => rfl
      | cons c t' =>
          simp only [List.cons_append, List.getLast?]
          exact ih

theorem trimHistory_getLast (xs : List ℚ) (v : ℚ) (m : Nat) (hm : 1 ≤ m) :
    (trimHistory (xs ++ [v]) m).getLast? = some v := by
  simp only [trimHistory]
  split
  · exact hist_getLast_concat xs v
  · rename_i hlen
    rw [hist_drop_append xs [v] _ (by simp at hlen ⊢; omega)]
    exact hist_getLast_concat _ v

theorem chanStep_ok_length (xs : List ℚ) (v : ℚ) :
    (chanStep xs true v).length = min (xs.length + 1) 30 := by
  simp [chanStep, trimHistory_length, HistoryLength]

/-- Fold a whole run of samples into one channel. -/
def chanFold (πok : MetricsSample → Bool) (πv : MetricsSample → ℚ)
    (samples : List MetricsSample) (xs : List ℚ) : List ℚ :=
  samples.foldl (fun a s => chanStep a (πok s) (πv s)) xs

theorem chanFold_length (πok : MetricsSample → Bool) (πv : MetricsSample → ℚ) :
    ∀ (samples : List MetricsSample) (xs : List ℚ), xs.length ≤ 30 →
      (∀ s ∈ samples, πok s = true) →
      (chanFold πok πv samples xs).length = min (xs.length + samples.length) 30 := by
  intro samples
  induction samples with
  | nil => intro xs hxs _; simp [chanFold]; omega
  | cons s rest ih =>
      intro xs hxs hok
      have hs : πok s = true := hok s (by simp)
      have hrest : ∀ t ∈ rest, πok t = true := fun t ht => hok t (by simp [ht])
      have step : chanStep xs (πok s) (πv s) = chanStep xs true (πv s) := by rw [hs]
      simp only [chanFold, List.foldl_cons]
      rw [step]
      have h30 : (chanStep xs true (πv s)).length ≤ 30 := by
        rw [chanStep_ok_length]; omega
      have := ih (chanStep xs true (πv s)) h30 hrest
      simp only [chanFold] at this
      rw [this, chanStep_ok_length]
      simp only [List.length_cons]
      omega

theorem chanFold_le30 (πok : MetricsSample → Bool) (πv : MetricsSample → ℚ) :
    ∀ (samples : List MetricsSample) (xs : List ℚ), xs.length ≤ 30 →
      (chanFold πok πv samples xs).length ≤ 30 := by
  intro samples
  induction samples with
  | nil => intro xs hxs; simpa [chanFold] using hxs
  | cons s rest ih =>
      intro xs hxs
      simp only [chanFold, List.foldl_cons]
      apply ih
      by_cases h : πok s = true
      · rw [h, chanStep_ok_length]; omega
      · simp only [Bool.not_eq_true] at h
        simp [chanStep, h, hxs]

theorem chanStep_ok_getLast (xs : List ℚ) (v : ℚ) :
    (chanStep xs true v).getLast? = some v := by
  simp only [chanStep, if_pos rfl]
  exact trimHistory_getLast xs v HistoryLength (by norm_num [HistoryLength])

theorem chanFold_getLast (πok : MetricsSample → Bool) (πv : MetricsSample → ℚ) :
    ∀ (samples : List MetricsSample) (xs : List ℚ),
      (∀ s ∈ samples, πok s = true) → samples ≠ [] →
      (chanFold πok πv samples xs).getLast? = (samples.map πv).getLast? := by
  intro samples
  induction samples with
  | nil => intro xs _ hne; exact absurd rfl hne
  | cons s rest ih =>
      intro xs hok _
      have hs : πok s = true := hok s (by simp)
      have hrest : ∀ t ∈ rest, πok t = true := fun t ht => hok t (by simp [ht])
      simp only [chanFold, List.foldl_cons, hs]
      rcases rest with _ | ⟨t, rest'⟩
      · simp only [List.foldl_nil, List.map_cons, List.map_nil]
        rw [chanStep_ok_getLast]
        rfl
      · have := ih (chanStep xs true (πv s)) hrest (by simp)
        simp only [chanFold] at this
        rw [this]
        simp [List.getLast?]

theorem foldl_UpdateHistory_Load (samples : List MetricsSample) :
    ∀ h : MetricHistory,
      (samples.foldl UpdateHistory h).Load =
        chanFold (fun s => s.OkLoad) (fun s => s.Load) samples h.Load := by
  induction samples with
  | nil => intro h; rfl
  | cons s rest ih =>
      intro h
      simp only [List.foldl_cons, chanFold, ih, UpdateHistory_Load]

theorem foldl_UpdateHistory_CPU (samples : List MetricsSample) :
    ∀ h : MetricHistory,
      (samples.foldl UpdateHistory h).CPU =
        chanFold (fun s => s.OkCPU) (fun s => s.CPU) samples h.CPU := by
  induction samples with
  | nil => intro h; rfl
  | cons s rest ih =>
      intro h
      simp only [List.foldl_cons, chanFold, ih, UpdateHistory_CPU]

theorem foldl_UpdateHistory_Mem (samples : List MetricsSample) :
    ∀ h : MetricHistory,
      (samples.foldl UpdateHistory h).Mem =
        chanFold (fun s => s.OkMem) (fun s => s.Mem) samples h.Mem := by
  induction samples with
  | nil => intro h; rfl
  | cons s rest ih =>
      intro h
      simp only [List.foldl_cons, chanFold, ih, UpdateHistory_Mem]

theorem foldl_UpdateHistory_Net (samples : List MetricsSample) :
    ∀ h : MetricHistory,
      (samples.foldl UpdateHistory h).Net =
        chanFold (fun s => s.OkNet) (fun s => s.NetKB) samples h.Net := by
  induction samples with
  | nil => intro h; rfl
  | cons s rest ih =>
      intro h
      simp only [List.foldl_cons, chanFold, ih, UpdateHistory_Net]

/-- **C2.** For every metric history channel, after any run of
`UpdateHistory` calls starting from the empty history in which every sample
carries a valid reading for that channel, the channel's length equals
`min(number of appends, 30)` and its last element is the most recently
appended value; moreover, after an arbitrary run of `UpdateHistory` calls
(valid or not), no channel's length ever exceeds `HistoryLength = 30`. -/
theorem claim_C2_history_ring (samples : List MetricsSample) :
    (let h := samples.foldl UpdateHistory emptyHistory
     h.Load.length ≤ 30 ∧ h.CPU.length ≤ 30 ∧ h.Mem.length ≤ 30 ∧ h.Net.length ≤ 30) ∧
    ((∀ s ∈ samples, s.OkLoad = true) →
      (samples.foldl UpdateHistory emptyHistory).Load.length = min samples.length 30 ∧
      (samples ≠ [] →
        (samples.foldl UpdateHistory emptyHistory).Load.getLast? =
          (samples.map (fun s => s.Load)).getLast?)) ∧
    ((∀ s ∈ samples, s.OkCPU = true) →
      (samples.foldl UpdateHistory emptyHistory).CPU.length = min samples.length 30 ∧
      (samples ≠ [] →
        (samples.foldl UpdateHistory emptyHistory).CPU.getLast? =
          (samples.map (fun s => s.CPU)).getLast?)) ∧
    ((∀ s ∈ samples, s.OkMem = true) →
      (samples.foldl UpdateHistory emptyHistory).Mem.length = min samples.length 30 ∧
      (samples ≠ [] →
        (samples.foldl UpdateHistory emptyHistory).Mem.getLast? =
          (samples.map (fun s => s.Mem)).getLast?)) ∧
    ((∀ s ∈ samples, s.OkNet = true) →
      (samples.foldl UpdateHistory emptyHistory).Net.length = min samples.length 30 ∧
      (samples ≠ [] →
        (samples.foldl UpdateHistory emptyHistory).Net.getLast? =
          (samples.map (fun s => s.NetKB)).getLast?)) := by
  refine ⟨⟨?_, ?_, ?_, ?_⟩, ?_, ?_, ?_, ?_⟩
  · rw [foldl_UpdateHistory_Load]; exact chanFold_le30 _ _ samples _ (by simp [emptyHistory])
  · rw [foldl_UpdateHistory_CPU]; exact chanFold_le30 _ _ samples _ (by simp [emptyHistory])
  · rw [foldl_UpdateHistory_Mem]; exact chanFold_le30 _ _ samples _ (by simp [emptyHistory])
  · rw [foldl_UpdateHistory_Net]; exact chanFold_le30 _ _ samples _ (by simp [emptyHistory])
  · intro hok
    constructor
    · rw [foldl_UpdateHistory_Load,
        chanFold_length _ _ samples _ (by simp [emptyHistory]) hok]
      simp [emptyHistory]
    · intro hne
      rw [foldl_UpdateHistory_Load]
      exact chanFold_getLast _ _ samples _ hok hne
  · intro hok
    constructor
    · rw [foldl_UpdateHistory_CPU,
        chanFold_length _ _ samples _ (by simp [emptyHistory]) hok]
      simp [emptyHistory]
    · intro hne
      rw [foldl_UpdateHistory_CPU]
      exact chanFold_getLast _ _ samples _ hok hne
  · intro hok
    constructor
    · rw [foldl_UpdateHistory_Mem,
        chanFold_length _ _ samples _ (by simp [emptyHistory]) hok]
      simp [emptyHistory]
    · intro hne
      rw [foldl_UpdateHistory_Mem]
      exact chanFold_getLast _ _ samples _ hok hne
  · intro hok
    constructor
    · rw [foldl_UpdateHistory_Net,
        chanFold_length _ _ samples _ (by simp [emptyHistory]) hok]
      simp [emptyHistory]
    · intro hne
      rw [foldl_UpdateHistory_Net]
      exact chanFold_getLast _ _ samples _ hok hne

/-- A concrete all-valid sample used by witnesses. -/
def sampleAllOk : MetricsSample := ⟨1, 2, 3, 4, true, true, true, true⟩

/-- A concrete all-invalid sample used by witnesses. -/
def sampleNoneOk : MetricsSample := ⟨5, 6, 7, 8, false, false, false, false⟩

theorem claim_C2_history_ring_witness :
    ((List.replicate 31 sampleAllOk).foldl UpdateHistory emptyHistory).Load.length =
        min (List.replicate 31 sampleAllOk).length 30 ∧
    ((List.replicate 31 sampleAllOk).foldl UpdateHistory emptyHistory).Load.getLast? =
        ((List.replicate 31 sampleAllOk).map (fun s => s.Load)).getLast? := by
  have h := claim_C2_history_ring (List.replicate 31 sampleAllOk)
  have hok : ∀ s ∈ List.replicate 31 sampleAllOk, s.OkLoad = true := by decide
  exact ⟨(h.2.1 hok).1, (h.2.1 hok).2 (by decide)⟩

/-- **C5.** `UpdateHistory` leaves each channel whose ok-flag is `false` in
the sample exactly unchanged; in particular a sample with all four ok-flags
`false` returns the history identical to its input (channels are never
zero-filled to stay aligned). -/
theorem claim_C5_sparse_channels (h : MetricHistory) (s : MetricsSample) :
    (s.OkLoad = false → (UpdateHistory h s).Load = h.Load) ∧
    (s.OkCPU = false → (UpdateHistory h s).CPU = h.CPU) ∧
    (s.OkMem = false → (UpdateHistory h s).Mem = h.Mem) ∧
    (s.OkNet = false → (UpdateHistory h s).Net = h.Net) ∧
    (s.OkLoad = false ∧ s.OkCPU = false ∧ s.OkMem = false ∧ s.OkNet = false →
      UpdateHistory h s = h) := by
  refine ⟨?_, ?_, ?_, ?_, ?_⟩
  · intro hno; rw [UpdateHistory_Load, chanStep, hno]; simp
  · intro hno; rw [UpdateHistory_CPU, chanStep, hno]; simp
  · intro hno; rw [UpdateHistory_Mem, chanStep, hno]; simp
  · intro hno; rw [UpdateHistory_Net, chanStep, hno]; simp
  · rintro ⟨h1, h2, h3, h4⟩
    simp [UpdateHistory, h1, h2, h3, h4]

theorem claim_C5_sparse_channels_witness :
    UpdateHistory ⟨[9], [], [10], []⟩ sampleNoneOk = ⟨[9], [], [10], []⟩ := by
  exact (claim_C5_sparse_channels ⟨[9], [], [10], []⟩ sampleNoneOk).2.2.2.2
    (by decide)

/-! ## Network rate sampler (`getNetRateKB`, `internal/monitor/monitor.go`) -/

/-- The process-lifetime baseline (Go package variables `netPrevTotal`
(`uint64`) and `netPrevAt` (`time.Time`); the zero `time.Time` is embedded
as the rational `0`). -/
structure NetRateState where
  netPrevTotal : Nat
  netPrevAt : ℚ
deriving DecidableEq

/-- Go `getNetRateKB`, with its two hidden package variables made an explicit
state.  `readOk`/`total` stand for the result of `readNetBytes()` and `now`
for `time.Now()`; the returned pair is `(rate, ok)` together with the updated
baseline. -/
def getNetRateKB (st : NetRateState) (readOk : Bool) (total : Nat) (now : ℚ) :
    (ℚ × Bool) × NetRateState :=
  if readOk = false then ((0, false), st)
  else if st.netPrevAt = 0 then ((0, false), ⟨total, now⟩)
  else if total < st.netPrevTotal then ((0, false), ⟨total, now⟩)
  else if now - st.netPrevAt ≤ 0 then ((0, false), ⟨total, now⟩)
  else ((((total - st.netPrevTotal : Nat) : ℚ) / 1024 / (now - st.netPrevAt), true),
        ⟨total, now⟩)

/-- **C3.** The net-rate sampler as a state machine over the
`(previous_total_bytes, previous_timestamp)` baseline: a call with a cold
(zero) baseline returns `ok = false` and records the baseline; a subsequent
call with a counter total greater than the stored baseline and positive
elapsed time returns `ok = true` with
`rate = (total₂ - total₁) / 1024 / elapsed_secs`; a call whose counter total
is smaller than the stored baseline returns `ok = false` and resets the
baseline to the new total rather than producing a negative rate. -/
theorem claim_C3_net_rate_baseline (st : NetRateState) (total : Nat) (now : ℚ) :
    (st.netPrevAt = 0 →
      getNetRateKB st true total now = ((0, false), ⟨total, now⟩)) ∧
    (st.netPrevAt ≠ 0 → st.netPrevTotal < total → st.netPrevAt < now →
      getNetRateKB st true total now =
        ((((total - st.netPrevTotal : Nat) : ℚ) / 1024 / (now - st.netPrevAt), true),
         ⟨total, now⟩)) ∧
    (st.netPrevAt ≠ 0 → total < st.netPrevTotal →
      getNetRateKB st true total now = ((0, false), ⟨total, now⟩)) := by
  refine ⟨?_, ?_, ?_⟩
  · intro hcold
    simp [getNetRateKB, hcold]
  · intro hwarm hgrow helapsed
    have h1 : ¬ total < st.netPrevTotal := by omega
    have h2 : ¬ (now - st.netPrevAt ≤ 0) := by
      intro hle
      exact absurd (by linarith : now ≤ st.netPrevAt) (not_le.mpr helapsed)
    simp [getNetRateKB, hwarm, h1, h2]
  · intro hwarm hshrink
    simp [getNetRateKB, hwarm, hshrink]

theorem claim_C3_net_rate_baseline_witness :
    getNetRateKB ⟨0, 0⟩ true 1000 5 = ((0, false), ⟨1000, 5⟩) ∧
    getNetRateKB ⟨1000, 5⟩ true 3048 7 =
      ((((3048 - 1000 : Nat) : ℚ) / 1024 / ((7 : ℚ) - 5), true), ⟨3048, 7⟩) ∧
    getNetRateKB ⟨3048, 7⟩ true 100 9 = ((0, false), ⟨100, 9⟩) := by
  refine ⟨(claim_C3_net_rate_baseline ⟨0, 0⟩ 1000 5).1 (by decide),
    (claim_C3_net_rate_baseline ⟨1000, 5⟩ 3048 7).2.1 (by decide) (by decide) (by decide),
    (claim_C3_net_rate_baseline ⟨3048, 7⟩ 100 9).2.2 (by decide) (by decide)⟩

/-! ## Rate formatting (`FormatRate`, `internal/monitor/monitor.go`)

`fmt.Sprintf("%0.0f", x)` and `%0.1f` are modelled by rounding to the nearest
integer (respectively nearest tenth) with ties to even, which is how Go's
`fmt` rounds an exact value; the theorems below never evaluate the formatter
at an exact tie, so the tie rule is immaterial to them. -/

/-- Round `num / den` (`den > 0`) to the nearest integer, ties to even. -/
def roundHalfEvenFrac (num den : ℤ) : ℤ :=
  let n := Int.fdiv num den
  let rem := num - n * den
  if 2 * rem < den then n
  else if den < 2 * rem then n + 1
  else if n % 2 = 0 then n else n + 1

/-- `%0.0f`: the nearest integer to `q`, ties to even. -/
def roundEven (q : ℚ) : ℤ := roundHalfEvenFrac q.num (q.den : ℤ)

/-- The nearest integer to `q * 10`, ties to even (used by `%0.1f`). -/
def roundEvenTenths (q : ℚ) : ℤ := roundHalfEvenFrac (q.num * 10) (q.den : ℤ)

/-- Go `fmt.Sprintf("%0.0f", q)` (modelled). -/
def fmtF0 (q : ℚ) : String := toString (roundEven q)

/-- Go `fmt.Sprintf("%0.1f", q)` (modelled). -/
def fmtF1 (q : ℚ) : String :=
  let t := roundEvenTenths q
  if t < 0 then "-" ++ toString ((-t) / 10) ++ "." ++ toString ((-t) % 10)
  else toString (t / 10) ++ "." ++ toString (t % 10)

/-- Go `FormatRate`: whole KB/s below 1024, one-decimal MB/s at or above. -/
def FormatRate (kbPerSec : ℚ) : String :=
  if kbPerSec < 1024 then fmtF0 kbPerSec ++ "KB/s"
  else fmtF1 (kbPerSec / 1024) ++ "MB/s"

theorem roundHalfEvenFrac_nonneg (num den : ℤ) (hnum : 0 ≤ num) (hden : 0 < den) :
    0 ≤ roundHalfEvenFrac num den := by
  have hfd : 0 ≤ Int.fdiv num den := Int.fdiv_nonneg hnum (le_of_lt hden)
  simp only [roundHalfEvenFrac]
  split
  · exact hfd
  · split
    · omega
    · split <;> omega

theorem roundEven_nonneg (q : ℚ) (hq : 0 ≤ q) : 0 ≤ roundEven q :=
  roundHalfEvenFrac_nonneg _ _ (Rat.num_nonneg.mpr hq) (by exact_mod_cast q.den_pos)

theorem roundEvenTenths_nonneg (q : ℚ) (hq : 0 ≤ q) : 0 ≤ roundEvenTenths q :=
  roundHalfEvenFrac_nonneg _ _
    (mul_nonneg (Rat.num_nonneg.mpr hq) (by norm_num)) (by exact_mod_cast q.den_pos)

/-- **C9.** `FormatRate` renders every value strictly below 1024 as a
whole-number `KB/s` string and every value at or above 1024 as a one-decimal
`MB/s` string; in particular `FormatRate 500 = "500KB/s"`,
`FormatRate 1024 = "1.0MB/s"` and `FormatRate 1536 = "1.5MB/s"`.
(The general clauses are stated for the nonnegative values a rate can take.) -/
theorem claim_C9_format_rate :
    FormatRate 500 = "500KB/s" ∧
    FormatRate 1024 = "1.0MB/s" ∧
    FormatRate 1536 = "1.5MB/s" ∧
    (∀ q : ℚ, 0 ≤ q → q < 1024 →
      ∃ n : ℤ, 0 ≤ n ∧ FormatRate q = toString n ++ "KB/s") ∧
    (∀ q : ℚ, 1024 ≤ q →
      ∃ a b : ℤ, 0 ≤ a ∧ 0 ≤ b ∧ b < 10 ∧
        FormatRate q = toString a ++ "." ++ toString b ++ "MB/s") := by
  refine ⟨?_, ?_, ?_, ?_, ?_⟩
  · decide
  · have hdiv : (1024 : ℚ) / 1024 = 1 := by norm_num
    simp only [FormatRate]
    rw [if_neg (by norm_num), hdiv]
    decide
  · have hdiv : (1536 : ℚ) / 1024 = mkRat 3 2 := by
      rw [Rat.mkRat_eq_div]; norm_num
    simp only [FormatRate]
    rw [if_neg (by norm_num), hdiv]
    decide
  · intro q hq hlt
    refine ⟨roundEven q, roundEven_nonneg q hq, ?_⟩
    simp only [FormatRate, if_pos hlt, fmtF0]
  · intro q hge
    have hr : (0 : ℚ) ≤ q / 1024 := by positivity
    have ht : 0 ≤ roundEvenTenths (q / 1024) := roundEvenTenths_nonneg _ hr
    refine ⟨roundEvenTenths (q / 1024) / 10, roundEvenTenths (q / 1024) % 10,
      Int.ediv_nonneg ht (by norm_num),
      Int.emod_nonneg _ (by norm_num),
      Int.emod_lt_of_pos _ (by norm_num), ?_⟩
    simp only [FormatRate, if_neg (not_lt.mpr hge), fmtF1, if_neg (not_lt.mpr ht)]

theorem claim_C9_format_rate_witness :
    (∃ n : ℤ, 0 ≤ n ∧ FormatRate 500 = toString n ++ "KB/s") ∧
    (∃ a b : ℤ, 0 ≤ a ∧ 0 ≤ b ∧ b < 10 ∧
      FormatRate 1536 = toString a ++ "." ++ toString b ++ "MB/s") :=
  ⟨claim_C9_format_rate.2.2.2.1 500 (by decide) (by decide),
   claim_C9_format_rate.2.2.2.2 1536 (by decide)⟩

/-! ## Output sanitizer (`sanitizeOutput`, `internal/ui`)

The Go function deletes every match of the regular expression
`\x1b\[[\d;?]*[@-ln-~]` (CSI introducer, optional digit/semicolon/question
parameters, one final byte in `0x40`–`0x7E` other than `m`).  Because the
parameter class and the final-byte class are disjoint, the regex is
deterministic and `ReplaceAllString` is equivalent to the left-to-right scan
implemented here: at each `ESC`, greedily read `[`, then parameter
characters, then require a non-`m` final byte; on success drop the whole
sequence, otherwise keep the character and continue. -/

/-- A character of the regex class `[\d;?]`. -/
def isParamChar (c : Char) : Bool := c.isDigit || c = ';' || c = '?'

/-- A character of the regex class `[@-ln-~]` (a CSI final byte other than
the SGR terminator `m`). -/
def isFinalNonM (c : Char) : Bool :=
  decide (0x40 ≤ c.toNat) && decide (c.toNat ≤ 0x7E) && c != 'm'

/-- Try to match `\[[\d;?]*[@-ln-~]` at the head of `l` (the part of the
regex after `ESC`); on success return the remainder of the input. -/
def matchCSI (l : List Char) : Option (List Char) :=
  match l with
  | [] => none
  | c :: rest =>
    if c = '[' then
      match rest.dropWhile isParamChar with
      | [] => none
      | f :: rest2 => if isFinalNonM f then some rest2 else none
    else none

/-- The sanitizer scan, with explicit fuel (one unit per consumed character;
`sanitizeChars` supplies `l.length`, which suffices). -/
def sanitizeAuxF : Nat → List Char → List Char
  | 0, l => l
  | _ + 1, [] => []
  | fuel + 1, c :: rest =>
    if c = '\x1b' then
      match matchCSI rest with
      | some rem => sanitizeAuxF fuel rem
      | none => c :: sanitizeAuxF fuel rest
    else c :: sanitizeAuxF fuel rest

/-- Go `sanitizeOutput` on a character list. -/
def sanitizeChars (l : List Char) : List Char := sanitizeAuxF l.length l

/-- Go `sanitizeOutput`. -/
def sanitizeOutput (input : String) : String := String.mk (sanitizeChars input.data)

theorem list_length_dropWhile_le (p : Char → Bool) (l : List Char) :
    (l.dropWhile p).length ≤ l.length := by
  induction l with
  | nil => simp [List.dropWhile]
  | cons c rest ih =>
      simp only [List.dropWhile]
      split
      · exact Nat.le_succ_of_le ih
      · simp

theorem matchCSI_some_length {l rem : List Char} (h : matchCSI l = some rem) :
    rem.length < l.length := by
  unfold matchCSI at h
  split at h
  · exact Option.noConfusion h
  · rename_i c rest
    split at h
    · split at h
      · exact Option.noConfusion h
      · rename_i f rest2 hd
        split at h
        · obtain rfl : rest2 = rem := Option.some.inj h
          have h2 := list_length_dropWhile_le isParamChar rest
          rw [hd] at h2
          simp only [List.length_cons] at h2 ⊢
          omega
        · exact Option.noConfusion h
    · exact Option.noConfusion h

theorem sanitizeAuxF_fuel :
    ∀ (fuel₁ fuel₂ : Nat) (l : List Char), l.length ≤ fuel₁ → l.length ≤ fuel₂ →
      sanitizeAuxF fuel₁ l = sanitizeAuxF fuel₂ l := by
  intro fuel₁
  induction fuel₁ with
  | zero =>
      intro fuel₂ l h1 _
      have : l = [] := by
        cases l with
        | nil => rfl
        | cons c rest => simp at h1
      subst this
      cases fuel₂ <;> rfl
  | succ f ih =>
      intro fuel₂ l h1 h2
      cases l with
      | nil => cases fuel₂ <;> rfl
      | cons c rest =>
          cases fuel₂ with
          | zero => simp at h2
          | succ g =>
              simp only [List.length_cons] at h1 h2
              simp only [sanitizeAuxF]
              by_cases hc : c = '\x1b'
              · simp only [if_pos hc]
                cases hm : matchCSI rest with
                | none =>
                    simp only [hm]
                    rw [ih g rest (by omega) (by omega)]
                | some rem =>
                    have hlt := matchCSI_some_length hm
                    simp only [hm]
                    exact ih g rem (by omega) (by omega)
              · simp only [if_neg hc]
                rw [ih g rest (by omega) (by omega)]

theorem sanitizeChars_nil : sanitizeChars [] = [] := rfl

theorem sanitizeChars_cons_esc_some {rest rem : List Char}
    (h : matchCSI rest = some rem) :
    sanitizeChars ('\x1b' :: rest) = sanitizeChars rem := by
  have hlt := matchCSI_some_length h
  simp only [sanitizeChars, List.length_cons, sanitizeAuxF, if_true, h]
  exact sanitizeAuxF_fuel rest.length rem.length rem (by omega) le_rfl

theorem sanitizeChars_cons_esc_none {rest : List Char}
    (h : matchCSI rest = none) :
    sanitizeChars ('\x1b' :: rest) = '\x1b' :: sanitizeChars rest := by
  simp only [sanitizeChars, List.length_cons, sanitizeAuxF, if_true, h]

theorem sanitizeChars_cons_ne {c : Char} {rest : List Char} (h : ¬ c = '\x1b') :
    sanitizeChars (c :: rest) = c :: sanitizeChars rest := by
  simp only [sanitizeChars, List.length_cons, sanitizeAuxF, if_neg h]

/-- Characters that contain no `ESC` pass through unchanged. -/
theorem sanitizeChars_append_noesc :
    ∀ (s t : List Char), '\x1b' ∉ s →
      sanitizeChars (s ++ t) = s ++ sanitizeChars t := by
  intro s
  induction s with
  | nil => intro t _; rfl
  | cons c rest ih =>
      intro t hno
      have hc : ¬ c = '\x1b' := fun hc => hno (by simp [hc])
      have hrest : '\x1b' ∉ rest := fun hr => hno (by simp [hr])
      simp only [List.cons_append]
      rw [sanitizeChars_cons_ne hc, ih t hrest]

/-- An input shaped as the claim describes: literal text interleaved with
CSI sequences made of the introducer, digit/semicolon parameters and one
final byte. -/
inductive AnsiSeg where
  | plain : List Char → AnsiSeg
  | csi : List Char → Char → AnsiSeg
deriving DecidableEq

/-- The characters of a segment. -/
def AnsiSeg.render : AnsiSeg → List Char
  | .plain s => s
  | .csi ps f => '\x1b' :: '[' :: (ps ++ [f])

/-- The characters of a segment list. -/
def renderSegs : List AnsiSeg → List Char
  | [] => []
  | seg :: rest => seg.render ++ renderSegs rest

/-- Well-formedness from the claim: plain text holds no `ESC`, parameters
are digits or semicolons, and the final byte lies in the control-function
terminator range `0x40`–`0x7E`. -/
def goodSeg : AnsiSeg → Prop
  | .plain s => '\x1b' ∉ s
  | .csi ps f => (∀ c ∈ ps, c.isDigit ∨ c = ';') ∧ 0x40 ≤ f.toNat ∧ f.toNat ≤ 0x7E

instance goodSeg_decidable : DecidablePred goodSeg
  | .plain s => inferInstanceAs (Decidable ('\x1b' ∉ s))
  | .csi ps f =>
      inferInstanceAs
        (Decidable ((∀ c ∈ ps, c.isDigit ∨ c = ';') ∧ 0x40 ≤ f.toNat ∧ f.toNat ≤ 0x7E))

/-- The sequences the sanitizer keeps: plain text and SGR (`m`-terminated)
sequences. -/
def keepSeg : AnsiSeg → Bool
  | .plain _ => true
  | .csi _ f => f = 'm'

theorem dropWhile_param_append {ps : List Char} (t : List Char) {f : Char}
    (hps : ∀ c ∈ ps, c.isDigit ∨ c = ';') (hf : ¬ isParamChar f) :
    (ps ++ f :: t).dropWhile isParamChar = f :: t := by
  induction ps with
  | nil => simp [List.dropWhile, hf]
  | cons c rest ih =>
      have hc : isParamChar c := by
        rcases hps c (by simp) with h | h <;> simp [isParamChar, h]
      simp only [List.cons_append, List.dropWhile, hc]
      exact ih (fun d hd => hps d (by simp [hd]))

theorem isParamChar_of_good {c : Char} (h : c.isDigit ∨ c = ';') :
    isParamChar c := by
  rcases h with h | h <;> simp [isParamChar, h]

theorem not_isParamChar_of_final {f : Char} (h40 : 0x40 ≤ f.toNat) :
    ¬ isParamChar f := by
  intro hp
  simp only [isParamChar, Bool.or_eq_true, decide_eq_true_eq] at hp
  rcases hp with (hd | hsemi) | hq
  · have h57 : f.toNat ≤ 57 := by
      simp [Char.isDigit] at hd
      simpa [Char.toNat] using hd.2
    omega
  · subst hsemi; exact absurd h40 (by decide)
  · subst hq; exact absurd h40 (by decide)

theorem esc_notin_good_params {ps : List Char}
    (hps : ∀ c ∈ ps, c.isDigit ∨ c = ';') : '\x1b' ∉ ps := by
  intro hmem
  rcases hps _ hmem with hd | hs
  · exact absurd hd (by decide)
  · exact absurd hs (by decide)

theorem sanitizeChars_csi_kept (ps t : List Char)
    (hps : ∀ c ∈ ps, c.isDigit ∨ c = ';') :
    sanitizeChars ('\x1b' :: '[' :: (ps ++ 'm' :: t)) =
      '\x1b' :: '[' :: (ps ++ 'm' :: sanitizeChars t) := by
  have hm : matchCSI ('[' :: (ps ++ 'm' :: t)) = none := by
    simp only [matchCSI, if_pos rfl]
    rw [dropWhile_param_append t hps (by decide)]
    simp [isFinalNonM]
  rw [sanitizeChars_cons_esc_none hm]
  have hnoesc : '\x1b' ∉ '[' :: (ps ++ ['m']) := by
    intro hmem
    simp only [List.mem_cons, List.mem_append, List.mem_singleton] at hmem
    rcases hmem with h | h | h
    · exact absurd h (by decide)
    · exact esc_notin_good_params hps h
    · exact absurd h (by decide)
  rw [show '[' :: (ps ++ 'm' :: t) = ('[' :: (ps ++ ['m'])) ++ t by simp]
  rw [sanitizeChars_append_noesc _ t hnoesc]
  simp

theorem sanitizeChars_csi_removed (ps t : List Char) (f : Char)
    (hps : ∀ c ∈ ps, c.isDigit ∨ c = ';')
    (h40 : 0x40 ≤ f.toNat) (h7E : f.toNat ≤ 0x7E) (hfm : f ≠ 'm') :
    sanitizeChars ('\x1b' :: '[' :: (ps ++ f :: t)) = sanitizeChars t := by
  have hm : matchCSI ('[' :: (ps ++ f :: t)) = some t := by
    simp only [matchCSI, if_pos rfl]
    rw [dropWhile_param_append t hps (not_isParamChar_of_final h40)]
    simp [isFinalNonM, h40, h7E, hfm]
  exact sanitizeChars_cons_esc_some hm

theorem sanitizeChars_segs :
    ∀ segs : List AnsiSeg, (∀ seg ∈ segs, goodSeg seg) →
      sanitizeChars (renderSegs segs) = renderSegs (segs.filter keepSeg) := by
  intro segs
  induction segs with
  | nil => intro _; rfl
  | cons seg rest ih =>
      intro hgood
      have hseg : goodSeg seg := hgood seg (by simp)
      have hrest : ∀ s ∈ rest, goodSeg s := fun s hs => hgood s (by simp [hs])
      cases seg with
      | plain s =>
          have hs : '\x1b' ∉ s := hseg
          rw [List.filter_cons_of_pos (by simp [keepSeg])]
          simp only [renderSegs, AnsiSeg.render]
          rw [sanitizeChars_append_noesc s _ hs, ih hrest]
      | csi ps f =>
          obtain ⟨hps, h40, h7E⟩ := hseg
          by_cases hf : f = 'm'
          · subst hf
            rw [List.filter_cons_of_pos (by simp [keepSeg])]
            simp only [renderSegs, AnsiSeg.render, List.cons_append,
              List.append_assoc, List.singleton_append, List.nil_append]
            rw [sanitizeChars_csi_kept ps _ hps, ih hrest]
          · rw [List.filter_cons_of_neg (by simp [keepSeg, hf])]
            simp only [renderSegs, AnsiSeg.render, List.cons_append,
              List.append_assoc, List.singleton_append, List.nil_append]
            rw [sanitizeChars_csi_removed ps _ f hps h40 h7E hf, ih hrest]

/-- **C4.** `sanitizeOutput` preserves SGR escape sequences and deletes every
other CSI control sequence: the three quoted examples hold, and in general,
for any input made of literal text and CSI sequences built from the
introducer, digit/semicolon parameters and one terminator byte in the
control-function range `0x40`–`0x7E`, exactly the sequences whose terminator
is `m` survive and all others are removed. -/
theorem claim_C4_sanitize_sgr :
    sanitizeOutput "\x1b[31mred\x1b[0m" = "\x1b[31mred\x1b[0m" ∧
    sanitizeOutput "\x1b[Hheader" = "header" ∧
    sanitizeOutput "\x1b[2Jclean" = "clean" ∧
    (∀ segs : List AnsiSeg, (∀ seg ∈ segs, goodSeg seg) →
      sanitizeChars (renderSegs segs) = renderSegs (segs.filter keepSeg)) :=
  ⟨by decide, by decide, by decide, sanitizeChars_segs⟩

theorem claim_C4_sanitize_sgr_witness :
    sanitizeChars
        (renderSegs [AnsiSeg.csi ['2'] 'J', AnsiSeg.csi ['3', '2'] 'm',
          AnsiSeg.plain ['o', 'k']]) =
      renderSegs
        ([AnsiSeg.csi ['2'] 'J', AnsiSeg.csi ['3', '2'] 'm',
          AnsiSeg.plain ['o', 'k']].filter keepSeg) :=
  claim_C4_sanitize_sgr.2.2.2
    [AnsiSeg.csi ['2'] 'J', AnsiSeg.csi ['3', '2'] 'm', AnsiSeg.plain ['o', 'k']]
    (by decide)

/-- **C10.** `sanitizeOutput` is the identity on every input string that
contains no `ESC` (`0x1b`) byte. -/
theorem claim_C10_sanitize_identity (s : String) (h : '\x1b' ∉ s.data) :
    sanitizeOutput s = s := by
  have hpass := sanitizeChars_append_noesc s.data [] h
  simp only [List.append_nil, sanitizeChars_nil] at hpass
  cases s with
  | mk data => simp only [sanitizeOutput, hpass]

theorem claim_C10_sanitize_identity_witness :
    sanitizeOutput "plain command output" = "plain command output" :=
  claim_C10_sanitize_identity "plain command output" (by decide)

/-! ## CPU-from-vmstat parser (`cpuFromVmstat`, `internal/monitor/monitor.go`)

Strings are processed as character lists.  `strings.Split(·, "\n")`,
`strings.Fields` and `strings.TrimSpace` are modelled by the corresponding
structural list functions below; Go's `strconv.ParseFloat` is modelled on
plain (optionally signed, optionally fractional) decimal numerals, the only
shapes these parsers ever receive from `vmstat`. -/

/-- `strings.Split(s, sep)` for a one-character separator. -/
def splitOnChar (sep : Char) : List Char → List (List Char)
  | [] => [[]]
  | c :: rest =>
    let r := splitOnChar sep rest
    if c = sep then [] :: r
    else
      match r with
      | g :: gs => (c :: g) :: gs
      | [] => [[c]]

/-- `strings.TrimSpace` (ASCII whitespace). -/
def trimSpace (l : List Char) : List Char :=
  ((l.dropWhile Char.isWhitespace).reverse.dropWhile Char.isWhitespace).reverse

/-- Split at every whitespace character (helper for `fieldsOf`). -/
def splitWhen (p : Char → Bool) : List Char → List (List Char)
  | [] => [[]]
  | c :: rest =>
    let r := splitWhen p rest
    if p c then [] :: r
    else
      match r with
      | g :: gs => (c :: g) :: gs
      | [] => [[c]]

/-- `strings.Fields`: the maximal runs of non-whitespace characters. -/
def fieldsOf (l : List Char) : List (List Char) :=
  (splitWhen Char.isWhitespace l).filter (fun g => g ≠ [])

/-- Go `indexOf` (`monitor.go`): index of the first field equal to `target`,
`none` for Go's `-1`. -/
def indexOf (l : List (List Char)) (target : List Char) : Option Nat :=
  match l with
  | [] => none
  | f :: rest =>
    if f = target then some 0 else (indexOf rest target).map (· + 1)

/-- Digit run to a natural number. -/
def digitsToNat (ds : List Char) : Nat :=
  ds.foldl (fun n c => n * 10 + (c.toNat - '0'.toNat)) 0

/-- Go `strconv.ParseFloat` restricted to plain decimal numerals
`[+-]?digits[.digits]?` (modelled; `vmstat`/`free` emit only these shapes). -/
def parseDecimal (s : List Char) : Option ℚ :=
  let sgn : ℤ × List Char :=
    match s with
    | '-' :: rest => (-1, rest)
    | '+' :: rest => (1, rest)
    | cs => (1, cs)
  let cs := sgn.2
  let ip := cs.takeWhile Char.isDigit
  let rest := cs.dropWhile Char.isDigit
  match rest with
  | [] => if ip.isEmpty then none else some (mkRat (sgn.1 * digitsToNat ip) 1)
  | '.' :: frac =>
      if frac.all Char.isDigit && !(ip.isEmpty && frac.isEmpty) then
        some (mkRat (sgn.1 * (digitsToNat ip * 10 ^ frac.length + digitsToNat frac))
          (10 ^ frac.length))
      else none
  | _ => none

/-- Go helper `parseFloat`: `ParseFloat(TrimSpace(s))`. -/
def parseFloat (s : List Char) : Option ℚ := parseDecimal (trimSpace s)

/-- The header/value line pair picked from the tail of the output (the
backwards loop of `cpuFromVmstat`, lines 314–326: last non-blank line is the
value row, the non-blank line before it is the header row). -/
def pickHeaderValues (lines : List (List Char)) : Option (List Char × List Char) :=
  match lines.reverse.filter (fun l => trimSpace l ≠ []) with
  | v :: h :: _ => some (h, v)
  | _ => none

/-- The clamp at the end of `cpuFromVmstat`: `usage = clamp(100 - idle, 0, 100)`. -/
def cpuClamp (idle : ℚ) : ℚ :=
  let cpu := 100 - idle
  let cpu := if cpu < 0 then 0 else cpu
  let cpu := if cpu > 100 then 100 else cpu
  cpu

/-- The parsing part of Go `cpuFromVmstat`: pick the header/value rows,
align their fields positionally, locate the `id` column and parse it. -/
def vmstatIdle (out : List Char) : Option ℚ :=
  let lines := splitOnChar '\n' (trimSpace out)
  if lines.length < 3 then none
  else
    match pickHeaderValues lines with
    | none => none
    | some (header, values) =>
      let hFields := fieldsOf header
      let vFields := fieldsOf values
      if hFields.length ≠ vFields.length then none
      else
        match indexOf hFields ['i', 'd'] with
        | none => none
        | some idx => parseFloat (vFields.getD idx [])

/-- Go `cpuFromVmstat` (given the captured `vmstat` output). -/
def cpuFromVmstat (out : List Char) : Option ℚ := (vmstatIdle out).map cpuClamp

theorem cpuClamp_bounds (idle : ℚ) : 0 ≤ cpuClamp idle ∧ cpuClamp idle ≤ 100 := by
  simp only [cpuClamp]
  split_ifs with h1 h2 h3 <;> constructor <;> linarith

/-- The two concrete vmstat-style outputs of the claim: an `id` column of
`97`, and a malformed idle of `150`. -/
def vmOut97 : List Char := ('p' :: 'r' :: 'o' :: 'c' :: 's' :: '\n' ::
  'r' :: ' ' :: 'b' :: ' ' :: 'i' :: 'd' :: '\n' ::
  '1' :: ' ' :: '2' :: ' ' :: '9' :: '7' :: [])

def vmOut150 : List Char := ('p' :: 'r' :: 'o' :: 'c' :: 's' :: '\n' ::
  'r' :: ' ' :: 'b' :: ' ' :: 'i' :: 'd' :: '\n' ::
  '1' :: ' ' :: '2' :: ' ' :: '1' :: '5' :: '0' :: [])

/-- **C6.** The CPU sampler computes `usage = clamp(100 - idle, 0, 100)` from
the parsed idle percentage: a header/value row pair whose `id` column holds
`97` yields `3` (with a successful parse), an idle value of `150` clamps to
`0`, and the result is never below `0` or above `100` for any successfully
parsed idle value. -/
theorem claim_C6_cpu_from_idle :
    cpuFromVmstat vmOut97 = some 3 ∧
    cpuFromVmstat vmOut150 = some 0 ∧
    (∀ (out : List Char) (q : ℚ), cpuFromVmstat out = some q → 0 ≤ q ∧ q ≤ 100) := by
  refine ⟨?_, ?_, ?_⟩
  · have hidle : vmstatIdle vmOut97 = some (mkRat 97 1) := by decide
    have hval : (mkRat 97 1 : ℚ) = 97 := by rw [Rat.mkRat_eq_div]; norm_num
    simp only [cpuFromVmstat, hidle, Option.map_some', hval, Option.some.injEq]
    norm_num [cpuClamp]
  · have hidle : vmstatIdle vmOut150 = some (mkRat 150 1) := by decide
    have hval : (mkRat 150 1 : ℚ) = 150 := by rw [Rat.mkRat_eq_div]; norm_num
    simp only [cpuFromVmstat, hidle, Option.map_some', hval, Option.some.injEq]
    norm_num [cpuClamp]
  · intro out q hq
    rcases hidle : vmstatIdle out with _ | idle
    · rw [cpuFromVmstat, hidle] at hq
      exact Option.noConfusion hq
    · rw [cpuFromVmstat, hidle, Option.map_some'] at hq
      obtain rfl : cpuClamp idle = q := Option.some.inj hq
      exact cpuClamp_bounds idle

theorem claim_C6_cpu_from_idle_witness :
    0 ≤ (3 : ℚ) ∧ (3 : ℚ) ≤ 100 :=
  claim_C6_cpu_from_idle.2.2 vmOut97 3 claim_C6_cpu_from_idle.1

/-- **C7.** Whenever the header row and the value row that `cpuFromVmstat`
picks from a vmstat-style output have different token counts, the parser
reports a parse failure (`ok = false`, embedded as `none`) instead of
reading any column positionally. -/
theorem claim_C7_token_count_mismatch (out header values : List Char)
    (hpick : pickHeaderValues (splitOnChar '\n' (trimSpace out)) = some (header, values))
    (hmis : (fieldsOf header).length ≠ (fieldsOf values).length) :
    cpuFromVmstat out = none := by
  have hnone : vmstatIdle out = none := by
    by_cases hlen : (splitOnChar '\n' (trimSpace out)).length < 3
    · simp [vmstatIdle, hlen]
    · simp [vmstatIdle, hlen, hpick, hmis]
  rw [cpuFromVmstat, hnone]
  rfl

/-- A vmstat-style output whose value row has one token fewer than its
header row. -/
def vmOutMis : List Char := ('x' :: '\n' ::
  'a' :: ' ' :: 'b' :: ' ' :: 'i' :: 'd' :: '\n' ::
  '1' :: ' ' :: '2' :: [])

theorem claim_C7_token_count_mismatch_witness :
    cpuFromVmstat vmOutMis = none :=
  claim_C7_token_count_mismatch vmOutMis
    ('a' :: ' ' :: 'b' :: ' ' :: 'i' :: 'd' :: [])
    ('1' :: ' ' :: '2' :: [])
    (by decide) (by decide)

/-! ## Tab-bar overflow layout (`renderTabs`, `main.go` / `internal/ui`)

`renderTabs` first renders every tab cell with the styling library and then
works only with the measured display widths of those cells (and of the
ellipsis cell).  The layout algorithm is embedded below over those measured
widths: `ws` is the list of per-cell widths (`renderedWidths`), `eW` the
width of one rendered overflow-ellipsis cell, `width` the available width
(Go `int`, hence `Int` here).  The produced row is abstracted as the ordered
list of parts (cells by index, overflow markers), which is exactly the
information `lipgloss.JoinHorizontal` receives. -/

/-- `renderedWidths[i]` (in-range by the loop guards of the source). -/
def wAt (ws : List Int) (i : Nat) : Int := ws.getD i 0

/-- The visible window `[left, right]` and the running row width `used`. -/
structure TabWindow where
  left : Nat
  right : Nat
  used : Int
deriving DecidableEq

/-- One iteration of the growth loop (lines 590–605 of `main.go`): try to
grow left, then right, tracking whether anything grew. -/
def growStep (ws : List Int) (width : Int) (st : TabWindow) : TabWindow × Bool :=
  if 0 < st.left ∧ st.used + wAt ws (st.left - 1) ≤ width then
    let stL : TabWindow := ⟨st.left - 1, st.right, st.used + wAt ws (st.left - 1)⟩
    if stL.right + 1 < ws.length ∧ stL.used + wAt ws (stL.right + 1) ≤ width then
      (⟨stL.left, stL.right + 1, stL.used + wAt ws (stL.right + 1)⟩, true)
    else (stL, true)
  else
    if st.right + 1 < ws.length ∧ st.used + wAt ws (st.right + 1) ≤ width then
      (⟨st.left, st.right + 1, st.used + wAt ws (st.right + 1)⟩, true)
    else (st, false)

/-- The growth loop (`for { ... if !grew { break } }`); the fuel is an upper
bound on the number of iterations, which the caller supplies amply. -/
def growLoop (ws : List Int) (width : Int) : Nat → TabWindow → TabWindow
  | 0, st => st
  | fuel + 1, st =>
    let s := growStep ws width st
    if s.2 then growLoop ws width fuel s.1 else s.1

/-- Total width of the overflow markers currently needed
(`leftOverflow`/`rightOverflow` recomputed from the window). -/
def owWidth (ws : List Int) (eW : Int) (l r : Nat) : Int :=
  (if 0 < l then eW else 0) + (if r + 1 < ws.length then eW else 0)

/-- The shrink loop (lines 612–628 of `main.go`): while the row with markers
is over budget and the window is wider than the active tab, drop the right
cell if the window extends right of the active tab (and the width check
passes), otherwise the left cell, re-evaluating the markers each time. -/
def shrinkLoop (ws : List Int) (width eW : Int) (active : Nat) :
    Nat → TabWindow → TabWindow
  | 0, st => st
  | fuel + 1, st =>
    if width < st.used + owWidth ws eW st.left st.right ∧
        (st.left < active ∨ active < st.right) then
      if active < st.right ∧
          0 ≤ st.used + owWidth ws eW st.left st.right - wAt ws st.right then
        shrinkLoop ws width eW active fuel
          ⟨st.left, st.right - 1, st.used - wAt ws st.right⟩
      else if st.left < active ∧
          0 ≤ st.used + owWidth ws eW st.left st.right - wAt ws st.left then
        shrinkLoop ws width eW active fuel
          ⟨st.left + 1, st.right, st.used - wAt ws st.left⟩
      else st
    else st

/-- One element of the produced tab row. -/
inductive TabPart where
  | marker : TabPart
  | cell : Nat → TabPart
deriving DecidableEq

/-- Go `renderTabs`, abstracted to the ordered list of parts it joins:
nothing for a non-positive width; every cell when everything fits; otherwise
the grown-then-shrunk window around the active tab with an ellipsis marker
on each side that still hides tabs. -/
def renderTabsParts (ws : List Int) (active : Nat) (width eW : Int) : List TabPart :=
  if width ≤ 0 then []
  else if ws.sum ≤ width then (List.range ws.length).map TabPart.cell
  else
    let g := growLoop ws width (ws.length + 1) ⟨active, active, wAt ws active⟩
    let s := shrinkLoop ws width eW active (ws.length + 1) g
    (if 0 < s.left then [TabPart.marker] else []) ++
      (List.range (s.right + 1 - s.left)).map (fun i => TabPart.cell (s.left + i)) ++
      (if s.right + 1 < ws.length then [TabPart.marker] else [])

/-- The window invariant: it contains the active tab and stays inside the
tab list. -/
def windowInv (ws : List Int) (active : Nat) (st : TabWindow) : Prop :=
  st.left ≤ active ∧ active ≤ st.right ∧ st.right < ws.length

instance windowInv_decidable (ws : List Int) (active : Nat) (st : TabWindow) :
    Decidable (windowInv ws active st) :=
  inferInstanceAs (Decidable (_ ∧ _ ∧ _))

theorem growStep_inv (ws : List Int) (width : Int) (active : Nat) (st : TabWindow)
    (h : windowInv ws active st) : windowInv ws active (growStep ws width st).1 := by
  obtain ⟨h1, h2, h3⟩ := h
  unfold windowInv
  simp only [growStep]
  split
  · rename_i hgl
    split
    · rename_i hg
      dsimp only at hg ⊢
      omega
    · dsimp only
      omega
  · split
    · rename_i hg
      dsimp only at hg ⊢
      omega
    · exact ⟨h1, h2, h3⟩

theorem growLoop_inv (ws : List Int) (width : Int) (active : Nat) :
    ∀ (fuel : Nat) (st : TabWindow), windowInv ws active st →
      windowInv ws active (growLoop ws width fuel st) := by
  intro fuel
  induction fuel with
  | zero => intro st h; exact h
  | succ f ih =>
      intro st h
      simp only [growLoop]
      split
      · exact ih _ (growStep_inv ws width active st h)
      · exact growStep_inv ws width active st h

theorem shrinkLoop_inv (ws : List Int) (width eW : Int) (active : Nat) :
    ∀ (fuel : Nat) (st : TabWindow), windowInv ws active st →
      windowInv ws active (shrinkLoop ws width eW active fuel st) := by
  intro fuel
  induction fuel with
  | zero => intro st h; exact h
  | succ f ih =>
      intro st h
      obtain ⟨h1, h2, h3⟩ := h
      simp only [shrinkLoop]
      split
      · split
        · rename_i hcond hr
          apply ih
          unfold windowInv
          dsimp only
          omega
        · split
          · rename_i hcond hr hl
            apply ih
            unfold windowInv
            dsimp only
            omega
          · exact ⟨h1, h2, h3⟩
      · exact ⟨h1, h2, h3⟩

/-- **C1.** For every tab list (given by its rendered cell widths) and every
positive available width: if the combined rendered width of all tab cells is
at most the available width, `renderTabs` includes every tab and no overflow
marker; otherwise the active tab's cell is always among the rendered cells,
and an ellipsis overflow marker appears on a side if and only if that side
has hidden tabs (the visible cells are the contiguous window `[l, r]`, a
left marker appears iff `0 < l`, i.e. iff tabs are hidden on the left, and a
right marker iff `r + 1 < ws.length`). -/
theorem claim_C1_tab_layout (ws : List Int) (active : Nat) (width eW : Int)
    (hA : active < ws.length) (hW : 0 < width) :
    (ws.sum ≤ width →
      renderTabsParts ws active width eW = (List.range ws.length).map TabPart.cell ∧
      TabPart.marker ∉ renderTabsParts ws active width eW) ∧
    (width < ws.sum →
      ∃ l r, l ≤ active ∧ active ≤ r ∧ r < ws.length ∧
        renderTabsParts ws active width eW =
          (if 0 < l then [TabPart.marker] else []) ++
            (List.range (r + 1 - l)).map (fun i => TabPart.cell (l + i)) ++
            (if r + 1 < ws.length then [TabPart.marker] else []) ∧
        TabPart.cell active ∈ renderTabsParts ws active width eW) := by
  have hnw : ¬ width ≤ 0 := by omega
  constructor
  · intro hfit
    constructor
    · simp only [renderTabsParts, if_neg hnw, if_pos hfit]
    · simp only [renderTabsParts, if_neg hnw, if_pos hfit]
      simp [List.mem_map]
  · intro hover
    have hnf : ¬ ws.sum ≤ width := by omega
    have hinv0 : windowInv ws active ⟨active, active, wAt ws active⟩ :=
      ⟨le_rfl, le_rfl, hA⟩
    have hinvg := growLoop_inv ws width active (ws.length + 1) _ hinv0
    have hinvs := shrinkLoop_inv ws width eW active (ws.length + 1) _ hinvg
    obtain ⟨h1, h2, h3⟩ := hinvs
    have heq : renderTabsParts ws active width eW =
        (if 0 < (shrinkLoop ws width eW active (ws.length + 1)
            (growLoop ws width (ws.length + 1) ⟨active, active, wAt ws active⟩)).left
          then [TabPart.marker] else []) ++
        (List.range ((shrinkLoop ws width eW active (ws.length + 1)
              (growLoop ws width (ws.length + 1) ⟨active, active, wAt ws active⟩)).right + 1 -
            (shrinkLoop ws width eW active (ws.length + 1)
              (growLoop ws width (ws.length + 1) ⟨active, active, wAt ws active⟩)).left)).map
          (fun i => TabPart.cell
            ((shrinkLoop ws width eW active (ws.length + 1)
              (growLoop ws width (ws.length + 1) ⟨active, active, wAt ws active⟩)).left + i)) ++
        (if (shrinkLoop ws width eW active (ws.length + 1)
              (growLoop ws width (ws.length + 1) ⟨active, active, wAt ws active⟩)).right + 1 <
            ws.length
          then [TabPart.marker] else []) := by
      simp only [renderTabsParts, if_neg hnw, if_neg hnf]
    refine ⟨_, _, h1, h2, h3, heq, ?_⟩
    rw [heq]
    refine List.mem_append.mpr (Or.inl (List.mem_append.mpr (Or.inr ?_)))
    refine List.mem_map.mpr ⟨active -
      (shrinkLoop ws width eW active (ws.length + 1)
        (growLoop ws width (ws.length + 1) ⟨active, active, wAt ws active⟩)).left, ?_, ?_⟩
    · exact List.mem_range.mpr (by omega)
    · congr 1
      omega

theorem claim_C1_tab_layout_witness :
    (renderTabsParts [5, 5] 0 20 5 = (List.range [5, 5].length).map TabPart.cell ∧
      TabPart.marker ∉ renderTabsParts [5, 5] 0 20 5) ∧
    (∃ l r, l ≤ 3 ∧ 3 ≤ r ∧ r < [11, 10, 10, 10, 10, 11].length ∧
      renderTabsParts [11, 10, 10, 10, 10, 11] 3 45 5 =
        (if 0 < l then [TabPart.marker] else []) ++
          (List.range (r + 1 - l)).map (fun i => TabPart.cell (l + i)) ++
          (if r + 1 < [11, 10, 10, 10, 10, 11].length then [TabPart.marker] else []) ∧
      TabPart.cell 3 ∈ renderTabsParts [11, 10, 10, 10, 10, 11] 3 45 5) :=
  ⟨(claim_C1_tab_layout [5, 5] 0 20 5 (by decide) (by decide)).1 (by decide),
   (claim_C1_tab_layout [11, 10, 10, 10, 10, 11] 3 45 5 (by decide) (by decide)).2
     (by decide)⟩

/-- Modelled from the spec (§4.3 step 5), for comparison with the source's
`shrinkLoop`: "shrink the window from whichever end is farther from the
active tab first, re-evaluating the need for markers after every shrink".
When the left end is strictly farther, it is shrunk first; otherwise the
behaviour (including the tie order, which the spec leaves to the
implementation) is kept exactly as in the source. -/
def shrinkLoopFartherSpec (ws : List Int) (width eW : Int) (active : Nat) :
    Nat → TabWindow → TabWindow
  | 0, st => st
  | fuel + 1, st =>
    if width < st.used + owWidth ws eW st.left st.right ∧
        (st.left < active ∨ active < st.right) then
      if st.right - active < active - st.left ∧ st.left < active ∧
          0 ≤ st.used + owWidth ws eW st.left st.right - wAt ws st.left then
        shrinkLoopFartherSpec ws width eW active fuel
          ⟨st.left + 1, st.right, st.used - wAt ws st.left⟩
      else if active < st.right ∧
          0 ≤ st.used + owWidth ws eW st.left st.right - wAt ws st.right then
        shrinkLoopFartherSpec ws width eW active fuel
          ⟨st.left, st.right - 1, st.used - wAt ws st.right⟩
      else if st.left < active ∧
          0 ≤ st.used + owWidth ws eW st.left st.right - wAt ws st.left then
        shrinkLoopFartherSpec ws width eW active fuel
          ⟨st.left + 1, st.right, st.used - wAt ws st.left⟩
      else st
    else st

/-- `renderTabsParts` with the spec's farther-end-first shrink policy in
place of the source's. -/
def renderTabsPartsFartherSpec (ws : List Int) (active : Nat) (width eW : Int) :
    List TabPart :=
  if width ≤ 0 then []
  else if ws.sum ≤ width then (List.range ws.length).map TabPart.cell
  else
    let g := growLoop ws width (ws.length + 1) ⟨active, active, wAt ws active⟩
    let s := shrinkLoopFartherSpec ws width eW active (ws.length + 1) g
    (if 0 < s.left then [TabPart.marker] else []) ++
      (List.range (s.right + 1 - s.left)).map (fun i => TabPart.cell (s.left + i)) ++
      (if s.right + 1 < ws.length then [TabPart.marker] else [])

/-- **C8, counterexample.** With cell widths `[11,10,10,10,10,11]`, active
tab `3`, width `45` and ellipsis width `5`, the grown window is `[1,4]` and
the markers push the row over budget; the left end (distance 2) is farther
from the active tab than the right end (distance 1), yet the source shrinks
the right end first, hiding tab 4 and keeping tab 1 — the opposite of the
claimed farther-end-first policy, whose result would keep tab 4. -/
theorem claim_C8_counterexample :
    renderTabsParts [11, 10, 10, 10, 10, 11] 3 45 5 =
      [TabPart.marker, TabPart.cell 1, TabPart.cell 2, TabPart.cell 3,
        TabPart.marker] ∧
    renderTabsPartsFartherSpec [11, 10, 10, 10, 10, 11] 3 45 5 =
      [TabPart.marker, TabPart.cell 2, TabPart.cell 3, TabPart.cell 4,
        TabPart.marker] ∧
    renderTabsParts [11, 10, 10, 10, 10, 11] 3 45 5 ≠
      renderTabsPartsFartherSpec [11, 10, 10, 10, 10, 11] 3 45 5 := by
  refine ⟨by decide, by decide, by decide⟩

theorem shrinkLoop_right_le (ws : List Int) (width eW : Int) (active : Nat) :
    ∀ (fuel : Nat) (st : TabWindow),
      (shrinkLoop ws width eW active fuel st).right ≤ st.right := by
  intro fuel
  induction fuel with
  | zero => intro st; exact le_rfl
  | succ f ih =>
      intro st
      simp only [shrinkLoop]
      split
      · split
        · exact le_trans (ih _) (by dsimp only; omega)
        · split
          · exact le_trans (ih _) (by dsimp only; omega)
          · exact le_rfl
      · exact le_rfl

theorem shrinkLoop_left_ge (ws : List Int) (width eW : Int) (active : Nat) :
    ∀ (fuel : Nat) (st : TabWindow),
      st.left ≤ (shrinkLoop ws width eW active fuel st).left := by
  intro fuel
  induction fuel with
  | zero => intro st; exact le_rfl
  | succ f ih =>
      intro st
      simp only [shrinkLoop]
      split
      · split
        · exact le_trans (by dsimp only; omega) (ih _)
        · split
          · exact le_trans (by dsimp only; omega) (ih _)
          · exact le_rfl
      · exact le_rfl

/-- The exact width of the window `[l, r]`. -/
def windowSum (ws : List Int) (l r : Nat) : Int :=
  ((List.range (r + 1 - l)).map (fun i => wAt ws (l + i))).sum

theorem wAt_nonneg (ws : List Int) (hnn : ∀ w ∈ ws, 0 ≤ w) (i : Nat) :
    0 ≤ wAt ws i := by
  induction ws generalizing i with
  | nil => simp [wAt]
  | cons w rest ih =>
      cases i with
      | zero => exact hnn w (by simp)
      | succ j =>
          simpa [wAt, List.getD] using ih (fun x hx => hnn x (by simp [hx])) j

theorem windowSum_nonneg (ws : List Int) (hnn : ∀ w ∈ ws, 0 ≤ w) (l r : Nat) :
    0 ≤ windowSum ws l r := by
  apply List.sum_nonneg
  intro x hx
  obtain ⟨i, _, rfl⟩ := List.mem_map.mp hx
  exact wAt_nonneg ws hnn _

theorem windowSum_drop_right (ws : List Int) (l r : Nat) (hl : l ≤ r) (hr : 1 ≤ r) :
    windowSum ws l r = windowSum ws l (r - 1) + wAt ws r := by
  simp only [windowSum]
  have h1 : r + 1 - l = (r - l) + 1 := by omega
  have h2 : r - 1 + 1 - l = r - l := by omega
  rw [h1, h2, List.range_succ, List.map_append, List.sum_append]
  simp only [List.map_cons, List.map_nil, List.sum_cons, List.sum_nil, add_zero]
  congr 1
  congr 1
  omega

theorem windowSum_drop_left (ws : List Int) (l r : Nat) (hl : l < r) :
    windowSum ws l r = wAt ws l + windowSum ws (l + 1) r := by
  simp only [windowSum]
  have h1 : r + 1 - l = (r - (l + 1) + 1) + 1 := by omega
  have h2 : r + 1 - (l + 1) = r - (l + 1) + 1 := by omega
  have hfun : ((fun i => wAt ws (l + i)) ∘ Nat.succ) = (fun i => wAt ws (l + 1 + i)) := by
    funext i
    simp only [Function.comp_apply]
    congr 1
    omega
  rw [h1, h2, List.range_succ_eq_map]
  simp only [List.map_cons, List.sum_cons, List.map_map, Nat.add_zero, hfun]

theorem windowSum_single (ws : List Int) (a : Nat) :
    windowSum ws a a = wAt ws a := by
  simp [windowSum, List.range_succ]

/-- The shrink loop keeps `used` equal to the window's exact width and, run
with enough fuel, stops only when the row fits or the window has collapsed
to the active tab alone. -/
theorem shrinkLoop_fits_or_collapsed (ws : List Int) (width eW : Int) (active : Nat)
    (hnn : ∀ w ∈ ws, 0 ≤ w) (heW : 0 ≤ eW) :
    ∀ (fuel : Nat) (st : TabWindow), windowInv ws active st →
      st.used = windowSum ws st.left st.right →
      st.right - st.left < fuel →
      width < (shrinkLoop ws width eW active fuel st).used +
        owWidth ws eW (shrinkLoop ws width eW active fuel st).left
          (shrinkLoop ws width eW active fuel st).right →
      (shrinkLoop ws width eW active fuel st).left = active ∧
        (shrinkLoop ws width eW active fuel st).right = active := by
  intro fuel
  induction fuel with
  | zero => intro st _ _ hf; omega
  | succ f ih =>
      intro st hinv hsum hf
      obtain ⟨h1, h2, h3⟩ := hinv
      simp only [shrinkLoop]
      by_cases hcond : width < st.used + owWidth ws eW st.left st.right ∧
          (st.left < active ∨ active < st.right)
      · rw [if_pos hcond]
        by_cases hr : active < st.right
        · have hguard : 0 ≤ st.used + owWidth ws eW st.left st.right - wAt ws st.right := by
            have hs := windowSum_drop_right ws st.left st.right (by omega) (by omega)
            have hnn1 := windowSum_nonneg ws hnn st.left (st.right - 1)
            have how : 0 ≤ owWidth ws eW st.left st.right := by
              simp only [owWidth]
              split <;> split <;> omega
            omega
          rw [if_pos ⟨hr, hguard⟩]
          apply ih
          · unfold windowInv
            dsimp only
            omega
          · dsimp only
            have hs := windowSum_drop_right ws st.left st.right (by omega) (by omega)
            omega
          · dsimp only
            omega
        · have hl : st.left < active := by
            rcases hcond.2 with h | h
            · exact h
            · omega
          have hguard : 0 ≤ st.used + owWidth ws eW st.left st.right - wAt ws st.left := by
            have hs := windowSum_drop_left ws st.left st.right (by omega)
            have hnn1 := windowSum_nonneg ws hnn (st.left + 1) st.right
            have how : 0 ≤ owWidth ws eW st.left st.right := by
              simp only [owWidth]
              split <;> split <;> omega
            omega
          rw [if_neg (fun hcontra => absurd hcontra.1 hr), if_pos ⟨hl, hguard⟩]
          apply ih
          · unfold windowInv
            dsimp only
            omega
          · dsimp only
            have hs := windowSum_drop_left ws st.left st.right (by omega)
            omega
          · dsimp only
            omega
      · rw [if_neg hcond]
        intro hover
        push_neg at hcond
        have := hcond hover
        omega

/-- **C8 (amended).** When adding the ellipsis markers pushes the row over
the width budget, the window is shrunk one cell at a time, taking from the
*right* end whenever the window still extends right of the active tab (and
the source's width guard passes) — regardless of which end is farther — and
from the left end otherwise; the markers are re-evaluated after every
single-cell shrink, and (for nonnegative cell and marker widths) the loop
stops only once the row fits or the window has collapsed to just the active
tab. -/
theorem claim_C8_shrink_order (ws : List Int) (width eW : Int) (active : Nat)
    (hnn : ∀ w ∈ ws, 0 ≤ w) (heW : 0 ≤ eW) :
    (∀ (fuel : Nat) (st : TabWindow),
      width < st.used + owWidth ws eW st.left st.right →
      active < st.right →
      0 ≤ st.used + owWidth ws eW st.left st.right - wAt ws st.right →
      (shrinkLoop ws width eW active (fuel + 1) st).right < st.right) ∧
    (∀ (fuel : Nat) (st : TabWindow),
      width < st.used + owWidth ws eW st.left st.right →
      st.right ≤ active → st.left < active →
      0 ≤ st.used + owWidth ws eW st.left st.right - wAt ws st.left →
      st.left < (shrinkLoop ws width eW active (fuel + 1) st).left) ∧
    (∀ (fuel : Nat) (st : TabWindow), windowInv ws active st →
      st.used = windowSum ws st.left st.right →
      st.right - st.left < fuel →
      width < (shrinkLoop ws width eW active fuel st).used +
        owWidth ws eW (shrinkLoop ws width eW active fuel st).left
          (shrinkLoop ws width eW active fuel st).right →
      (shrinkLoop ws width eW active fuel st).left = active ∧
        (shrinkLoop ws width eW active fuel st).right = active) := by
  refine ⟨?_, ?_, ?_⟩
  · intro fuel st hover hr hguard
    simp only [shrinkLoop]
    rw [if_pos (show width < st.used + owWidth ws eW st.left st.right ∧
          (st.left < active ∨ active < st.right) from ⟨hover, Or.inr hr⟩),
      if_pos (show active < st.right ∧
          0 ≤ st.used + owWidth ws eW st.left st.right - wAt ws st.right from
        ⟨hr, hguard⟩)]
    have hmono := shrinkLoop_right_le ws width eW active fuel
      ⟨st.left, st.right - 1, st.used - wAt ws st.right⟩
    dsimp only at hmono
    omega
  · intro fuel st hover hra hl hguard
    simp only [shrinkLoop]
    rw [if_pos (show width < st.used + owWidth ws eW st.left st.right ∧
          (st.left < active ∨ active < st.right) from ⟨hover, Or.inl hl⟩),
      if_neg (show ¬ (active < st.right ∧
          0 ≤ st.used + owWidth ws eW st.left st.right - wAt ws st.right) from
        fun hcontra => absurd hcontra.1 (by omega)),
      if_pos (show st.left < active ∧
          0 ≤ st.used + owWidth ws eW st.left st.right - wAt ws st.left from
        ⟨hl, hguard⟩)]
    have hmono := shrinkLoop_left_ge ws width eW active fuel
      ⟨st.left + 1, st.right, st.used - wAt ws st.left⟩
    dsimp only at hmono
    omega
  · exact shrinkLoop_fits_or_collapsed ws width eW active hnn heW

theorem claim_C8_shrink_order_witness :
    ((shrinkLoop [11, 10, 10, 10, 10, 11] 45 5 3 6 ⟨1, 4, 40⟩).right < 4) ∧
    (0 < (shrinkLoop [10, 10, 10] 25 5 2 4 ⟨0, 2, 30⟩).left) ∧
    ((shrinkLoop [100, 100, 100] 5 5 1 3 ⟨0, 2, 300⟩).left = 1 ∧
      (shrinkLoop [100, 100, 100] 5 5 1 3 ⟨0, 2, 300⟩).right = 1) := by
  have h := claim_C8_shrink_order [11, 10, 10, 10, 10, 11] 45 5 3
    (by decide) (by decide)
  have h2 := claim_C8_shrink_order [10, 10, 10] 25 5 2 (by decide) (by decide)
  have h3 := claim_C8_shrink_order [100, 100, 100] 5 5 1 (by decide) (by decide)
  refine ⟨h.1 5 ⟨1, 4, 40⟩ (by decide) (by decide) (by decide),
    h2.2.1 3 ⟨0, 2, 30⟩ (by decide) (by decide) (by decide) (by decide),
    h3.2.2 3 ⟨0, 2, 300⟩ (by decide) (by decide) (by decide) (by decide)⟩
